import Mathlib

/-!
Verification development for the vscodeCreo mapkey parsing pipeline.

The JavaScript sources are shallowly embedded here:
  * `src/server/blockTokenizer.js` (both concatenated variants) — block segmentation,
  * `src/server/contentTokenizer_chatgpt.js` — `extractMacroValue`,
  * `src/server/tokenizer.js` — `tokenize`, `getMapkeyBlocks`, position lookups,
  * `src/server/mapkeyStructure.js` — definitions, call graph, depth, cycles, nesting check.

JS strings are modelled as `List Char`; JS `undefined`/`null` as `Option`;
JS objects used as string-keyed maps as insertion-ordered association lists.
-/

set_option maxRecDepth 10000

namespace VscodeCreo

/-- Characters of one line of the document. -/
abbrev Line := List Char

/-- A mapkey name. -/
abbrev MName := List Char

/-- Whitespace test modelling the JS regex class \s and String.prototype.trim
(ASCII subset; the documents analysed contain only ASCII whitespace). -/
def isWs (c : Char) : Bool :=
  c == ' ' || c == '\t' || c == '\n' || c == '\r' || c == '\x0b' || c == '\x0c'

/-- Model of JS String.prototype.trim. -/
def jsTrim (l : List Char) : List Char :=
  ((l.dropWhile isWs).reverse.dropWhile isWs).reverse

/-- True when `l` starts with `pat` (anchored regex prefix test). -/
def startsWith : List Char → List Char → Bool
  | [], _ => true
  | _ :: _, [] => false
  | p :: ps, c :: cs => p == c && startsWith ps cs

/-- True when `l` ends with `pat`. -/
def endsWith (pat l : List Char) : Bool :=
  startsWith pat.reverse l.reverse

/-- True when `pat` occurs as a contiguous substring of `l`
(unanchored regex test over a literal pattern). -/
def containsSub (pat : List Char) : List Char → Bool
  | [] => startsWith pat []
  | l@(_ :: rest) => startsWith pat l || containsSub pat rest

/-- Index of the first occurrence of substring `pat` in `l`
(JS String.indexOf; meaningful only when the pattern occurs). -/
def indexOfSub (pat : List Char) : List Char → Nat
  | [] => 0
  | l@(_ :: rest) => if startsWith pat l then 0 else 1 + indexOfSub pat rest

/-- Index of the first occurrence of substring `pat` in `l`, as an `Option`. -/
def firstSubIdx (pat : List Char) : List Char → Option Nat
  | [] => if startsWith pat ([] : List Char) then some 0 else none
  | l@(_ :: rest) =>
    if startsWith pat l then some 0 else (firstSubIdx pat rest).map (· + 1)

/-- Model of JS String.prototype.replace with a literal pattern and empty
replacement: removes the first occurrence of `pat`, if any. -/
def removeFirst (pat : List Char) : List Char → List Char
  | [] => []
  | l@(c :: rest) =>
    if startsWith pat l then l.drop pat.length else c :: removeFirst pat rest

/-- Model of text.split("\n"): never empty, one entry per newline-separated line. -/
def splitLines : List Char → List Line
  | [] => [[]]
  | c :: rest =>
    if c == '\n' then [] :: splitLines rest
    else
      match splitLines rest with
      | l :: ls => (c :: l) :: ls
      | [] => [[c]]

/-- Length contributed by lines when each is followed by a newline:
Σ (length + 1). -/
def sumLens (ls : List Line) : Nat :=
  ls.foldr (fun l acc => l.length + 1 + acc) 0

/-- Length of lines.join("\n"): the document length these lines came from. -/
def docLen : List Line → Nat
  | [] => 0
  | [l] => l.length
  | l :: l2 :: rest => l.length + 1 + docLen (l2 :: rest)

/-- Offset of line `idx` inside the joined lines:
JS lines.slice(0, idx).join("\n").length + (idx > 0 ? 1 : 0). -/
def prefixOffset (ls : List Line) (idx : Nat) : Nat :=
  sumLens (ls.take idx)

/- ------------------------------------------------------------------
Regex constants of blockTokenizer.js, as decidable line predicates.
------------------------------------------------------------------ -/

/-- The literal "mapkey". -/
def mapkeyKw : List Char := "mapkey".toList

/-- The literal "mapkey(continued)" (17 characters). -/
def contMarker : List Char := "mapkey(continued)".toList

/-- The literal "@MAPKEY_LABEL". -/
def labelPat : List Char := "@MAPKEY_LABEL".toList

/-- The literal "@MAPKEY_NAME". -/
def namePat : List Char := "@MAPKEY_NAME".toList

/-- REGEX.DECLARATION = /^mapkey\s+([^\s;]+)/ — returns the captured name.
The \s+ run must be non-empty and the captured name non-empty. -/
def declMatch (l : Line) : Option MName :=
  if startsWith mapkeyKw l then
    if ((l.drop 6).takeWhile isWs).isEmpty then none
    else
      if (((l.drop 6).dropWhile isWs).takeWhile fun c => !isWs c && c != ';').isEmpty then none
      else some (((l.drop 6).dropWhile isWs).takeWhile fun c => !isWs c && c != ';')
  else none

/-- REGEX.MAPKEY_START = /^mapkey\s/ . -/
def mapkeyStartTest (l : Line) : Bool :=
  startsWith mapkeyKw l &&
    (match l.drop 6 with
     | c :: _ => isWs c
     | [] => false)

/-- REGEX.CONTINUATION_LINE = /(?:^mapkey\(continued\)|@).*\\$/ :
the ^ applies only to the first alternative, so the test holds when the line
ends with a backslash and either starts with the continuation marker or
contains an @ somewhere before the final character. -/
def contLineTest (l : Line) : Bool :=
  endsWith ['\\'] l && (startsWith contMarker l || l.dropLast.contains '@')

/-- REGEX.CONTINUATION_LINE_START = /^mapkey\(continued\)\s/ as a test. -/
def contLineStartTest (l : Line) : Bool :=
  startsWith contMarker l &&
    (match l.drop 17 with
     | c :: _ => isWs c
     | [] => false)

/-- line.replace(REGEX.CONTINUATION_LINE_START, ""): drops the 17-character
marker plus the one whitespace character the regex consumes. -/
def replaceContLineStart (l : Line) : Line :=
  if contLineStartTest l then l.drop 18 else l

/-- REGEX.CONTINUATION_LINE_END = /[^;](\\$)/ : a final backslash whose
preceding character exists and is not a semicolon. -/
def contLineEndTest (l : Line) : Bool :=
  match l.reverse with
  | '\\' :: c :: _ => c != ';'
  | _ => false

/-- line.replace(REGEX.CONTINUATION_LINE_END, ""): the match covers the final
backslash and the (non-semicolon) character before it, so both are removed. -/
def replaceContLineEnd (l : Line) : Line :=
  if contLineEndTest l then l.dropLast.dropLast else l

/-- REGEX.CONTINUATION_COMMENT = /^\s*!.+;\\$/ applied to a trimmed line:
starts with !, ends with the two characters ;\\ and has at least one
character between them. -/
def contCommentTest (l : Line) : Bool :=
  startsWith ['!'] l && endsWith [';', '\\'] l && decide (4 ≤ l.length)

/-- REGEX.MACRO_END = /;/ . -/
def macroEndTest (l : Line) : Bool := l.contains ';'

/- ------------------------------------------------------------------
Token and Block records (blockTokenizer.js).
------------------------------------------------------------------ -/

/-- Model of the JS blockId string mapkey_LINE_NAME: the declaration line
index paired with the mapkey name. -/
abbrev BlockId := Nat × MName

/-- One token { type, value, start, end, blockId }. Tokens created by
addSimpleToken carry no start/end in the JS (undefined), modelled as none. -/
structure Token where
  type : String
  value : List Char
  startPos : Option Nat
  endPos : Option Nat
  blockId : Option BlockId
deriving DecidableEq, Repr

/-- One block { id, name, start, end, content, tokens }. The id is modelled
by the declaration line index `line` together with `name`. -/
structure Block where
  line : Nat
  name : MName
  startPos : Nat
  endPos : Nat
  content : List Char
  tokens : List Token
deriving DecidableEq, Repr

/-- Fallback block used only to spell concrete witnesses. -/
def emptyBlock : Block := ⟨0, [], 0, 0, [], []⟩

/-- Fallback token used only to spell concrete witnesses. -/
def emptyToken : Token := ⟨"", [], none, none, none⟩

/-- Continuation-line collection loop shared by both extractMapkeyBlocks
variants, parameterised by the non-comment continuation test `cont`
(first variant: CONTINUATION_LINE; second variant: MAPKEY_START or
CONTINUATION_LINE_START). A comment continuation line (CONTINUATION_COMMENT)
always ends with ;\\ so the second variant's endsWith(";\\") re-check always
continues, exactly like the first variant. Stops at a blank line or at the
first line that is neither kind of continuation. -/
def takeCont (cont : Line → Bool) : List Line → List Line
  | [] => []
  | l :: rest =>
    if (jsTrim l).isEmpty then []
    else if contCommentTest (jsTrim l) then l :: takeCont cont rest
    else if cont (jsTrim l) then l :: takeCont cont rest
    else []

/-- HELPER: FLATTEN MULTILINE TOKEN (first blockTokenizer variant), inner
loop over the lines from the start index: strip the continuation marker,
test and strip the trailing-backslash match (which removes the backslash and
the character before it), trim, and stop after the first line that does not
end in a continuation. Returns the value fragments in order. -/
def flattenMLAux : List Line → List (List Char)
  | [] => []
  | l :: rest =>
    let l1 := jsTrim (replaceContLineStart l)
    if contLineEndTest l1 then
      jsTrim (replaceContLineEnd l1) :: flattenMLAux rest
    else [l1]

/-- flattenMultiLine(lines, startIndex, CONTINUATION_LINE_START,
CONTINUATION_LINE_END).value : fragments joined with a single space. -/
def flattenMultiLine (lines : List Line) (startIndex : Nat) : List Char :=
  List.intercalate [' '] (flattenMLAux (lines.drop startIndex))

/-- Metadata tokens of the FIRST extractMapkeyBlocks variant: for each of
@MAPKEY_LABEL and @MAPKEY_NAME, find the first collected line containing the
tag and emit one token via addSimpleToken — with value from flattenMultiLine
and NO start/end offsets. -/
def metaTokensV1 (collected : List Line) (_offset : Nat) (bid : BlockId) : List Token :=
  (match collected.findIdx? (fun l => containsSub labelPat l) with
   | some idx =>
     [{ type := "mapkey.label", value := flattenMultiLine collected idx,
        startPos := none, endPos := none, blockId := some bid }]
   | none => []) ++
  (match collected.findIdx? (fun l => containsSub namePat l) with
   | some idx =>
     [{ type := "mapkey.description", value := flattenMultiLine collected idx,
        startPos := none, endPos := none, blockId := some bid }]
   | none => [])

/-- Value-fragment loop of addRegexToken (second blockTokenizer variant):
strip the start marker, strip the continuation marker, cut at the first
semicolon (setting hitEnd), strip the trailing-backslash match, trim, and
push the fragment unconditionally; stop after hitEnd. -/
def regexTokenLines (startPat : List Char) : List Line → List (List Char)
  | [] => []
  | l :: rest =>
    let l1 := jsTrim (removeFirst startPat l)
    let l2 := jsTrim (replaceContLineStart l1)
    if macroEndTest l2 then
      [jsTrim (replaceContLineEnd (l2.takeWhile (· != ';')))]
    else jsTrim (replaceContLineEnd l2) :: regexTokenLines startPat rest

/-- addRegexToken (second blockTokenizer variant): finds the first line
matching the start marker and emits one token whose start is the line's
absolute offset and whose end is start + value.length. -/
def addRegexToken (lines : List Line) (baseOffset : Nat) (startPat : List Char)
    (type : String) (bid : BlockId) : List Token :=
  match lines.findIdx? (fun l => containsSub startPat l) with
  | none => []
  | some idx =>
    let value := List.intercalate [' '] (regexTokenLines startPat (lines.drop idx))
    let s := baseOffset + prefixOffset lines idx
    [{ type := type, value := value, startPos := some s,
       endPos := some (s + value.length), blockId := some bid }]

/-- Metadata tokens of the SECOND extractMapkeyBlocks variant. -/
def metaTokensV2 (collected : List Line) (offset : Nat) (bid : BlockId) : List Token :=
  addRegexToken collected offset labelPat "mapkey.label" bid ++
  addRegexToken collected offset namePat "mapkey.description" bid

/-- Main loop of extractMapkeyBlocks, shared by both variants and
parameterised by the continuation test and the metadata-token builder.
`offset` is the absolute offset of the first line of `lines`, `i` its line
index. `fuel` bounds the recursion; the callers pass the number of lines,
which always suffices because every step consumes at least one line.
On a declaration line the block takes the continuation lines, its end offset
is start + declaration length + Σ (consumed length + 1), and the next offset
is lines.slice(0, i).join("\n").length + 1 = end + 1. -/
def extractLoop (cont : Line → Bool) (mkMeta : List Line → Nat → BlockId → List Token) :
    Nat → List Line → Nat → Nat → List Block
  | 0, _, _, _ => []
  | _ + 1, [], _, _ => []
  | fuel + 1, line :: rest, offset, i =>
    match declMatch line with
    | none => extractLoop cont mkMeta fuel rest (offset + line.length + 1) (i + 1)
    | some name =>
      let consumed := takeCont cont rest
      let collected := line :: consumed
      let blockEnd := offset + line.length + sumLens consumed
      let nameStart := indexOfSub name line
      let nameTok : Token :=
        { type := "mapkey.name", value := name,
          startPos := some (offset + nameStart),
          endPos := some (offset + nameStart + name.length),
          blockId := some (i, name) }
      { line := i, name := name, startPos := offset, endPos := blockEnd,
        content := List.intercalate ['\n'] collected,
        tokens := nameTok :: mkMeta collected offset (i, name) } ::
        extractLoop cont mkMeta fuel (rest.drop consumed.length)
          (blockEnd + 1) (i + 1 + consumed.length)

/-- extractMapkeyBlocks, first variant (the one exported first and consumed
by tokenizer.js): continuation test CONTINUATION_LINE, metadata tokens via
flattenMultiLine and addSimpleToken. -/
def extractMapkeyBlocks (text : List Char) : List Block :=
  let lines := splitLines text
  extractLoop contLineTest metaTokensV1 lines.length lines 0 0

/-- extractMapkeyBlocks, second variant: continuation test MAPKEY_START or
CONTINUATION_LINE_START, metadata tokens via addRegexToken. -/
def extractMapkeyBlocks2 (text : List Char) : List Block :=
  let lines := splitLines text
  extractLoop (fun t => mapkeyStartTest t || contLineStartTest t) metaTokensV2
    lines.length lines 0 0

/- ------------------------------------------------------------------
Content tokenizer (the contentTokenizer.js module required by
tokenizer.js). Only its callers and a reference transcript exist under
src/, so it is modelled from the spec.
------------------------------------------------------------------ -/

/-- Strip one value fragment per spec §4.2: remove the continuation-line
marker, then a trailing escape backslash, and trim. -/
def stripFragment (l : Line) : Line :=
  let l1 := jsTrim (replaceContLineStart l)
  if endsWith ['\\'] l1 then jsTrim l1.dropLast else l1

/-- Cut a flattened character stream at the first un-escaped statement
terminator (a ; not immediately followed by \\), which is excluded. -/
def cutUnescaped : List Char → List Char
  | [] => []
  | ';' :: '\\' :: rest => ';' :: '\\' :: cutUnescaped rest
  | ';' :: _ => []
  | c :: rest => c :: cutUnescaped rest

/-- Modelled from the spec: metadata content after a tag, flattened across
continuation lines — continuation markers stripped, trailing escape
backslashes stripped, fragments joined with a single space, cut at the
first un-escaped statement terminator (spec §4.2). -/
def metadataValue (tail : List Char) : List Char :=
  jsTrim (cutUnescaped (List.intercalate [' '] ((splitLines tail).map stripFragment)))

/-- Modelled from the spec: tag-marker token plus (when the flattened
content is non-empty) one content token for a metadata tag; an empty
flattened content emits only the marker token (spec §4.2 failure policy). -/
def tagTokens (content : List Char) (base : Nat) (pat : List Char)
    (ty : String) (bid : BlockId) : List Token :=
  match firstSubIdx pat content with
  | none => []
  | some idx =>
    let v := metadataValue (content.drop (idx + pat.length))
    { type := "mapkey.tag", value := pat, startPos := some (base + idx),
      endPos := some (base + idx + pat.length), blockId := some bid } ::
      if v.isEmpty then []
      else [{ type := ty, value := v, startPos := some (base + idx + pat.length),
              endPos := some (base + idx + pat.length + v.length), blockId := some bid }]

/-- Nested-call scan, the /%([^;]+);/g loop: at each % take the run of
non-semicolon characters; a following ; completes a match (name and its
offset), an empty run resumes scanning, and a missing ; ends the scan.
`fuel` bounds the recursion; callers pass the content length, which always
suffices since every step consumes at least one character. -/
def nestedCallsF : Nat → List Char → Nat → List (MName × Nat)
  | 0, _, _ => []
  | _ + 1, [], _ => []
  | fuel + 1, c :: rest, p =>
    if c == '%' then
      let nm := rest.takeWhile (· != ';')
      if nm.isEmpty then nestedCallsF fuel rest (p + 1)
      else
        match rest.drop nm.length with
        | ';' :: rest2 => (nm, p + 1) :: nestedCallsF fuel rest2 (p + 1 + nm.length + 1)
        | _ => []
    else nestedCallsF fuel rest (p + 1)

/-- Modelled from the spec: tokenizeMapkeyContent of the missing
contentTokenizer.js (declared in the mapkeyStructure quick-reference,
required by tokenizer.js through a commented-out import). Emits the record
name token from the declaration, metadata tag/content tokens for
@MAPKEY_LABEL (mapkey.label), @MAPKEY_NAME (mapkey.description) and @SYSTEM
(mapkey.system.instruction), and one mapkey.nested.name token per
nested-call occurrence. Keyword, action, comment and continuation-marker
tokens are elided: no analysed behaviour depends on them. -/
def tokenizeMapkeyContent (b : Block) : List Token :=
  let content := b.content
  let bid : BlockId := (b.line, b.name)
  let nameToks : List Token :=
    match declMatch content with
    | some nm =>
      let ns := 6 + indexOfSub nm (content.drop 6)
      [{ type := "mapkey.name", value := nm, startPos := some (b.startPos + ns),
         endPos := some (b.startPos + ns + nm.length), blockId := some bid }]
    | none => []
  nameToks ++
    tagTokens content b.startPos labelPat "mapkey.label" bid ++
    tagTokens content b.startPos namePat "mapkey.description" bid ++
    tagTokens content b.startPos "@SYSTEM".toList "mapkey.system.instruction" bid ++
    (nestedCallsF content.length content 0).map fun nmp =>
      { type := "mapkey.nested.name", value := nmp.1, startPos := some (b.startPos + nmp.2),
        endPos := some (b.startPos + nmp.2 + nmp.1.length), blockId := some bid }

/- ------------------------------------------------------------------
tokenizer.js entry points.
------------------------------------------------------------------ -/

/-- Comparison used to model tokens.sort((a, b) => a.start - b.start): a
token without offsets compares as NaN in JS, which the sort treats as equal;
the model keeps such pairs in their original (stable) order. -/
def tokLe (a b : Token) : Bool :=
  match a.startPos, b.startPos with
  | some x, some y => x ≤ y
  | _, _ => true

/-- Stable insertion of a token after all tokens not greater than it. -/
def insertTok (t : Token) : List Token → List Token
  | [] => [t]
  | u :: rest => if tokLe u t then u :: insertTok t rest else t :: u :: rest

/-- Stable sort by token start offset. -/
def sortByStart : List Token → List Token
  | [] => []
  | t :: rest => insertTok t (sortByStart rest)

/-- tokenize(text): collect the block-level tokens of every block of the
first extractMapkeyBlocks variant and sort them by start offset. -/
def tokenize (text : List Char) : List Token :=
  sortByStart (((extractMapkeyBlocks text).map Block.tokens).flatten)

/-- getMapkeyBlocks(text): the blocks with their tokens replaced by the
content-tokenizer output. -/
def getMapkeyBlocks (text : List Char) : List Block :=
  (extractMapkeyBlocks text).map fun b => { b with tokens := tokenizeMapkeyContent b }

/-- getTokenAtPosition: first token with start <= position < end, else null.
A token without offsets never matches (NaN comparisons are false in JS). -/
def getTokenAtPosition (text : List Char) (position : Nat) : Option Token :=
  (tokenize text).find? fun t =>
    match t.startPos, t.endPos with
    | some s, some e => position ≥ s && position < e
    | _, _ => false

/-- getBlockAtPosition: first block with start <= position <= end, else null. -/
def getBlockAtPosition (text : List Char) (position : Nat) : Option Block :=
  (getMapkeyBlocks text).find? fun b =>
    position ≥ b.startPos && position ≤ b.endPos

/- ------------------------------------------------------------------
mapkeyStructure.js.
------------------------------------------------------------------ -/

/-- MapkeyDefinition as assembled by buildMapkeyDefinition. -/
structure MapkeyDefinition where
  name : MName
  nameToken : Option Token
  description : Option (List Char)
  label : Option (List Char)
  system : Option (List Char)
  rangeStart : Nat
  rangeEnd : Nat
  allTokens : List Token
  calledMapkeys : List MName
deriving DecidableEq, Repr

/-- buildMapkeyDefinition(block): first token of each metadata type wins;
calledMapkeys are the mapkey.nested.name token values in order, duplicates
kept. -/
def buildMapkeyDefinition (block : Block) : MapkeyDefinition :=
  let tokens := block.tokens
  { name := block.name
    nameToken := tokens.find? fun t => t.type == "mapkey.name"
    description := (tokens.find? fun t => t.type == "mapkey.description").map Token.value
    label := (tokens.find? fun t => t.type == "mapkey.label").map Token.value
    system := (tokens.find? fun t => t.type == "mapkey.system.instruction").map Token.value
    rangeStart := block.startPos
    rangeEnd := block.endPos
    allTokens := tokens
    calledMapkeys := (tokens.filter fun t => t.type == "mapkey.nested.name").map Token.value }

/-- parseMapkeys(text): one MapkeyDefinition per block of getMapkeyBlocks. -/
def parseMapkeys (text : List Char) : List MapkeyDefinition :=
  (getMapkeyBlocks text).map buildMapkeyDefinition

/-- getMapkeyAtPosition: first definition whose inclusive range contains the
position, else null. -/
def getMapkeyAtPosition (text : List Char) (position : Nat) : Option MapkeyDefinition :=
  (parseMapkeys text).find? fun mk =>
    position ≥ mk.rangeStart && position ≤ mk.rangeEnd

/-- The call graph: a JS object keyed by mapkey name, modelled as an
insertion-ordered association list (faithful for the non-integer-index
names used throughout). -/
abbrev CallGraph := List (MName × List MName)

/-- Property read graph[k]: value of the entry with key k, if any. -/
def objGet (g : CallGraph) (k : MName) : Option (List MName) :=
  (g.find? fun p => p.1 == k).map Prod.snd

/-- Property write graph[k] = v: overwrites an existing entry in place,
otherwise appends (JS object insertion-order semantics). -/
def objSet (g : CallGraph) (k : MName) (v : List MName) : CallGraph :=
  match g with
  | [] => [(k, v)]
  | (k1, v1) :: rest => if k1 == k then (k, v) :: rest else (k1, v1) :: objSet rest k v

/-- buildCallGraph(text): graph[mapkey.name] = mapkey.calledMapkeys for each
definition in order, so a later definition overwrites an earlier one that
shares its name. -/
def buildCallGraph (text : List Char) : CallGraph :=
  (parseMapkeys text).foldl (fun g mk => objSet g mk.name mk.calledMapkeys) []

/-- Every name mentioned by the graph: its keys and all callee names. -/
def graphNames (g : CallGraph) : List MName :=
  g.map Prod.fst ++ (g.map Prod.snd).flatten

/-- calculateDepth(name, visited) inside getMapkeyDepth: 0 on a revisit
(circular reference) or when the callee list is empty or missing, else
1 + max of the callee depths, each computed with the current name added to a
copy of the visited set. `fuel` bounds the recursion; the caller passes
(graphNames g).length + 1, which always suffices: every recursive level adds
one distinct graph name to `visited`. -/
def calculateDepthF : Nat → CallGraph → MName → List MName → Nat
  | 0, _, _, _ => 0
  | fuel + 1, g, name, visited =>
    if name ∈ visited then 0
    else
      let callees := (objGet g name).getD []
      if callees.isEmpty then 0
      else 1 + (callees.map fun c => calculateDepthF fuel g c (name :: visited)).foldl Nat.max 0

/-- getMapkeyDepth(text, mapkeyName). -/
def getMapkeyDepth (text : List Char) (mapkeyName : MName) : Nat :=
  let callGraph := buildCallGraph text
  calculateDepthF ((graphNames callGraph).length + 1) callGraph mapkeyName []

/-- Index of the first occurrence of a name in a path (path.indexOf). -/
def idxOf (a : MName) : List MName → Nat
  | [] => 0
  | b :: rest => if b == a then 0 else 1 + idxOf a rest

/-- findCycles(name, path) inside findCircularDependencies: a name already
on the path records the cyclic suffix path.slice(path.indexOf(name)) ++
[name]; a name in the global visited set stops; otherwise recurse into every
callee with the name appended to the path, concatenating the recorded cycles
in order. `fuel` bounds the recursion; the caller passes
(graphNames g).length + 1, which always suffices: the path holds distinct
graph names. -/
def findCyclesF : Nat → CallGraph → MName → List MName → List MName → List (List MName)
  | 0, _, _, _, _ => []
  | fuel + 1, g, name, path, visited =>
    if name ∈ path then [path.drop (idxOf name path) ++ [name]]
    else if name ∈ visited then []
    else
      ((objGet g name).getD []).foldl
        (fun acc c => acc ++ findCyclesF fuel g c (path ++ [name]) visited) []

/-- findCircularDependencies(text): run findCycles from every graph key not
yet in the global visited set, adding the key to the set afterwards. -/
def findCircularDependencies (text : List Char) : List (List MName) :=
  let callGraph := buildCallGraph text
  let fuel := (graphNames callGraph).length + 1
  ((callGraph.map Prod.fst).foldl
    (fun acc k =>
      if k ∈ acc.2 then acc
      else (acc.1 ++ findCyclesF fuel callGraph k [] acc.2, acc.2 ++ [k]))
    (([], []) : List (List MName) × List MName)).1

/-- checkNestingDepth(text): every definition whose depth exceeds the
hard-coded limit 5, reported as (name, depth) in document order. -/
def checkNestingDepth (text : List Char) : List (MName × Nat) :=
  (parseMapkeys text).foldl
    (fun violations mk =>
      let depth := getMapkeyDepth text mk.name
      if 5 < depth then violations ++ [(mk.name, depth)] else violations)
    []

/- ------------------------------------------------------------------
extractMacroValue (contentTokenizer_chatgpt.js, second part).
------------------------------------------------------------------ -/

/-- Value-fragment loop of extractMacroValue: strip the start marker, strip
the continuation marker, cut at the first semicolon (setting hitEnd), strip
the trailing-backslash match, trim, keep only non-empty fragments, stop
after hitEnd. -/
def macroValueLines (startPat : List Char) : List Line → List (List Char)
  | [] => []
  | l :: rest =>
    let l1 := jsTrim (removeFirst startPat l)
    let l2 := jsTrim (replaceContLineStart l1)
    if macroEndTest l2 then
      let l4 := jsTrim (replaceContLineEnd (l2.takeWhile (· != ';')))
      if l4.isEmpty then [] else [l4]
    else
      let l4 := jsTrim (replaceContLineEnd l2)
      (if l4.isEmpty then [] else [l4]) ++ macroValueLines startPat rest

/-- extractMacroValue(rawContent, baseOffset, startMarker, blockId): token
whose value joins the fragments with single spaces and trims, whose start is
the absolute offset of the first line matching the marker, and whose end is
start + value.length; null when no line matches. -/
def extractMacroValue (rawContent : List Char) (baseOffset : Nat)
    (startPat : List Char) (bid : Option BlockId) : Option Token :=
  let lines := splitLines rawContent
  match lines.findIdx? (fun l => containsSub startPat l) with
  | none => none
  | some idx =>
    let value := jsTrim (List.intercalate [' '] (macroValueLines startPat (lines.drop idx)))
    let s := baseOffset + prefixOffset lines idx
    some { type := "macro.value", value := value, startPos := some s,
           endPos := some (s + value.length), blockId := bid }

/- ------------------------------------------------------------------
Concrete documents used by counterexamples and witnesses.
------------------------------------------------------------------ -/

/-- Document with a single self-loop record: A calls A. -/
def docSelfLoop : List Char := "mapkey A %A;".toList

/-- Chain of 6 records, each calling the next; R6 calls nothing. -/
def docChain6 : List Char :=
  ("mapkey R1 %R2;\nmapkey R2 %R3;\nmapkey R3 %R4;\nmapkey R4 %R5;\n" ++
   "mapkey R5 %R6;\nmapkey R6 ~x;").toList

/-- Chain of 7 records, each calling the next; R7 calls nothing. -/
def docChain7 : List Char :=
  ("mapkey S1 %S2;\nmapkey S2 %S3;\nmapkey S3 %S4;\nmapkey S4 %S5;\n" ++
   "mapkey S5 %S6;\nmapkey S6 %S7;\nmapkey S7 ~x;").toList

/-- Two definitions sharing the name D, the first calling P, the second Q. -/
def docDupName : List Char := "mapkey D %P;\n\nmapkey D %Q;".toList

/-- Two definitions sharing the name M, the first calling the undeclared X. -/
def docDupDangling : List Char := "mapkey M %X;\n\nmapkey M ~q;".toList

/-- Declaration plus two continuation lines carrying a multiline label. -/
def docMultiLabel : List Char :=
  "mapkey A x\n@MAPKEY_LABELone two\\\n@three;four\\".toList

/-- Single declaration line containing a label tag. -/
def docLabelOnly : List Char := "mapkey C @MAPKEY_LABELhi".toList

/-- Two adjacent declaration lines with no separating blank line. -/
def docAdjacent : List Char := "mapkey A %B;\nmapkey B ~x;".toList

/-- One short record, used for out-of-bounds position lookups. -/
def docShort : List Char := "mapkey Z ~x;".toList

/-- Block content spanning a declaration line and one continuation line with
a label split across both. -/
def contentMultiLabel : List Char :=
  "mapkey A @MAPKEY_LABELpart one\\\nmapkey(continued) part two;rest".toList

/-- Fallback definition used only to spell concrete witnesses. -/
def emptyMapkeyDefinition : MapkeyDefinition :=
  ⟨[], none, none, none, none, 0, 0, [], []⟩

/- ------------------------------------------------------------------
Auxiliary lemmas: strings and substrings.
------------------------------------------------------------------ -/

theorem startsWith_length {p l : List Char} (h : startsWith p l = true) :
    p.length ≤ l.length := by
  induction p generalizing l with
  | nil => simp
  | cons c p ih =>
    cases l with
    | nil => simp [startsWith] at h
    | cons d l =>
      simp only [startsWith, Bool.and_eq_true] at h
      simpa using ih h.2

theorem startsWith_self_append (p t : List Char) : startsWith p (p ++ t) = true := by
  induction p with
  | nil => simp [startsWith]
  | cons c p ih => simp [startsWith, ih]

theorem containsSub_append_left (p a : List Char) {b : List Char}
    (h : containsSub p b = true) : containsSub p (a ++ b) = true := by
  induction a with
  | nil => simpa using h
  | cons c a ih =>
    simp only [List.cons_append, containsSub, Bool.or_eq_true]
    exact Or.inr ih

theorem containsSub_of_startsWith {p l : List Char} (h : startsWith p l = true) :
    containsSub p l = true := by
  cases l with
  | nil =>
    cases p with
    | nil => simpa [containsSub] using h
    | cons q qs => simp [startsWith] at h
  | cons c rest => simp [containsSub, h]

theorem indexOfSub_le {p l : List Char} (h : containsSub p l = true) :
    indexOfSub p l + p.length ≤ l.length := by
  induction l with
  | nil =>
    cases p with
    | nil => simp [indexOfSub]
    | cons q qs => simp [containsSub, startsWith] at h
  | cons c rest ih =>
    by_cases hs : startsWith p (c :: rest) = true
    · have := startsWith_length hs
      simp only [indexOfSub, hs, if_true]
      simpa using this
    · simp only [containsSub, Bool.or_eq_true] at h
      rcases h with h | h
      · exact absurd h hs
      · have := ih h
        simp [indexOfSub, hs]
        omega

theorem declMatch_elim {l : Line} {n : MName} (h : declMatch l = some n) :
    startsWith mapkeyKw l = true ∧
    n = ((l.drop 6).dropWhile isWs).takeWhile (fun c => !isWs c && c != ';') ∧
    n ≠ [] := by
  unfold declMatch at h
  split at h
  next h1 =>
    split at h
    next => simp at h
    next =>
      split at h
      next => simp at h
      next h3 =>
        simp only [Option.some.injEq] at h
        refine ⟨h1, h.symm, ?_⟩
        rw [h] at h3
        simpa [List.isEmpty_iff] using h3
  next h1 => simp at h

theorem declMatch_ne_nil {l : Line} {n : MName} (h : declMatch l = some n) : n ≠ [] :=
  (declMatch_elim h).2.2

theorem declMatch_containsSub {l : Line} {n : MName} (h : declMatch l = some n) :
    containsSub n l = true := by
  obtain ⟨h1, hn, -⟩ := declMatch_elim h
  have hl : l = l.take 6 ++ ((l.drop 6).takeWhile isWs ++
      (n ++ ((l.drop 6).dropWhile isWs).dropWhile fun c => !isWs c && c != ';')) := by
    rw [hn, List.takeWhile_append_dropWhile, List.takeWhile_append_dropWhile,
      List.take_append_drop]
  rw [hl]
  exact containsSub_append_left _ _ (containsSub_append_left _ _
    (containsSub_of_startsWith (startsWith_self_append n _)))

/- ------------------------------------------------------------------
Auxiliary lemmas: line arithmetic.
------------------------------------------------------------------ -/

theorem sumLens_take_le (ls : List Line) (k : Nat) :
    sumLens (ls.take k) ≤ sumLens ls := by
  induction ls generalizing k with
  | nil => simp [sumLens]
  | cons l rest ih =>
    cases k with
    | zero => simp [sumLens]
    | succ k =>
      simp only [List.take_succ_cons, sumLens, List.foldr_cons]
      have := ih k
      simp only [sumLens] at this
      omega

theorem takeCont_eq_take (cont : Line → Bool) (rest : List Line) :
    takeCont cont rest = rest.take (takeCont cont rest).length := by
  induction rest with
  | nil => simp [takeCont]
  | cons l rest ih =>
    unfold takeCont
    split
    · simp
    · split
      · simpa using ih
      · split
        · simpa using ih
        · simp

theorem docLen_cons_of_ne_nil {l : Line} {rest : List Line} (h : rest ≠ []) :
    docLen (l :: rest) = l.length + 1 + docLen rest := by
  cases rest with
  | nil => exact absurd rfl h
  | cons l2 r => rfl

theorem sumLens_eq_docLen {ls : List Line} (h : ls ≠ []) :
    sumLens ls = docLen ls + 1 := by
  induction ls with
  | nil => exact absurd rfl h
  | cons l rest ih =>
    cases rest with
    | nil => simp [sumLens, docLen]
    | cons l2 r =>
      have := ih (by simp)
      simp only [sumLens, List.foldr_cons] at this ⊢
      rw [docLen_cons_of_ne_nil (by simp)]
      omega

theorem docLen_append {a b : List Line} (ha : a ≠ []) (hb : b ≠ []) :
    docLen (a ++ b) = sumLens a + docLen b := by
  induction a with
  | nil => exact absurd rfl ha
  | cons l rest ih =>
    cases rest with
    | nil =>
      have e1 : ([l] : List Line) ++ b = l :: b := rfl
      rw [e1, docLen_cons_of_ne_nil hb]
      simp only [sumLens, List.foldr_cons, List.foldr_nil]
    | cons l2 r =>
      have h1 := ih (by simp)
      have e1 : (l :: l2 :: r) ++ b = l :: ((l2 :: r) ++ b) := rfl
      rw [e1, docLen_cons_of_ne_nil (by simp), h1]
      simp only [sumLens, List.foldr_cons]
      omega

theorem splitLines_ne_nil (text : List Char) : splitLines text ≠ [] := by
  cases text with
  | nil => simp [splitLines]
  | cons c rest =>
    unfold splitLines
    by_cases h : c == '\n'
    · simp [h]
    · simp only [h, if_false]
      cases splitLines rest <;> simp

theorem splitLines_docLen (text : List Char) :
    docLen (splitLines text) = text.length := by
  induction text with
  | nil => simp [splitLines, docLen]
  | cons c rest ih =>
    by_cases h : c = '\n'
    · subst h
      rw [show splitLines ('\n' :: rest) = [] :: splitLines rest from by simp [splitLines]]
      rw [docLen_cons_of_ne_nil (splitLines_ne_nil rest)]
      simp only [List.length_nil, List.length_cons, ih]
      omega
    · cases hs : splitLines rest with
      | nil => exact absurd hs (splitLines_ne_nil rest)
      | cons l ls =>
        have e : splitLines (c :: rest) = (c :: l) :: ls := by
          simp [splitLines, h, hs]
        rw [e]
        rw [hs] at ih
        cases ls with
        | nil => simpa [docLen] using ih
        | cons l2 r =>
          rw [docLen_cons_of_ne_nil (by simp)] at ih ⊢
          simp only [List.length_cons]
          omega

/- ------------------------------------------------------------------
Auxiliary lemmas: extractLoop invariants.
------------------------------------------------------------------ -/

theorem extractLoop_nil (cont : Line → Bool) (mkMeta : List Line → Nat → BlockId → List Token)
    (fuel offset i : Nat) : extractLoop cont mkMeta fuel [] offset i = [] := by
  cases fuel <;> rfl

theorem extractLoop_start_ge {cont : Line → Bool}
    {mkMeta : List Line → Nat → BlockId → List Token} :
    ∀ fuel lines offset i, ∀ b ∈ extractLoop cont mkMeta fuel lines offset i,
      offset ≤ b.startPos := by
  intro fuel
  induction fuel with
  | zero => intro lines offset i b hb; simp [extractLoop] at hb
  | succ fuel ih =>
    intro lines offset i b hb
    cases lines with
    | nil => simp [extractLoop] at hb
    | cons line rest =>
      simp only [extractLoop] at hb
      split at hb
      · have := ih rest (offset + line.length + 1) (i + 1) b hb
        omega
      · simp only [List.mem_cons] at hb
        rcases hb with rfl | hb
        · simp
        · have := ih _ _ _ b hb
          omega

theorem extractLoop_pairwise {cont : Line → Bool}
    {mkMeta : List Line → Nat → BlockId → List Token} :
    ∀ fuel lines offset i,
      List.Pairwise (fun a b => a.endPos < b.startPos)
        (extractLoop cont mkMeta fuel lines offset i) := by
  intro fuel
  induction fuel with
  | zero => intro lines offset i; simp [extractLoop]
  | succ fuel ih =>
    intro lines offset i
    cases lines with
    | nil => simp [extractLoop]
    | cons line rest =>
      simp only [extractLoop]
      split
      · exact ih _ _ _
      · refine List.Pairwise.cons ?_ (ih _ _ _)
        intro b hb
        have := extractLoop_start_ge _ _ _ _ b hb
        simp only []
        omega

theorem extractLoop_end_le {cont : Line → Bool}
    {mkMeta : List Line → Nat → BlockId → List Token} :
    ∀ fuel lines offset i, ∀ b ∈ extractLoop cont mkMeta fuel lines offset i,
      b.endPos ≤ offset + docLen lines := by
  intro fuel
  induction fuel with
  | zero => intro lines offset i b hb; simp [extractLoop] at hb
  | succ fuel ih =>
    intro lines offset i b hb
    cases lines with
    | nil => simp [extractLoop] at hb
    | cons line rest =>
      simp only [extractLoop] at hb
      split at hb
      · cases rest with
        | nil => rw [extractLoop_nil] at hb; simp at hb
        | cons l2 r =>
          have := ih _ _ _ b hb
          rw [docLen_cons_of_ne_nil (by simp)]
          omega
      · have hc := takeCont_eq_take cont rest
        have hsplit : takeCont cont rest ++ rest.drop (takeCont cont rest).length = rest := by
          nth_rewrite 1 [hc]
          exact List.take_append_drop _ _
        simp only [List.mem_cons] at hb
        rcases hb with rfl | hb
        · simp only []
          cases rest with
          | nil => simp [takeCont, docLen, sumLens]
          | cons l2 r =>
            rw [docLen_cons_of_ne_nil (by simp)]
            have hle : sumLens (takeCont cont (l2 :: r)) ≤ sumLens (l2 :: r) := by
              rw [hc]; exact sumLens_take_le _ _
            have h2 := sumLens_eq_docLen (show l2 :: r ≠ [] by simp)
            omega
        · by_cases hr : rest.drop (takeCont cont rest).length = []
          · rw [hr, extractLoop_nil] at hb; simp at hb
          · have hrec := ih _ _ _ b hb
            have hrne : rest ≠ [] := by
              intro h
              subst h
              simp [takeCont] at hr
            rw [docLen_cons_of_ne_nil hrne]
            by_cases hcons : takeCont cont rest = []
            · rw [hcons] at hrec
              simp only [List.length_nil, List.drop_zero, sumLens, List.foldr_nil] at hrec
              omega
            · have hd : docLen rest =
                  sumLens (takeCont cont rest) + docLen (rest.drop (takeCont cont rest).length) := by
                rw [← hsplit, docLen_append hcons hr]
                rw [hsplit]
              omega

theorem mem_metaTokensV1 {collected : List Line} {offset : Nat} {bid : BlockId} {t : Token}
    (ht : t ∈ metaTokensV1 collected offset bid) :
    (t.type = "mapkey.label" ∨ t.type = "mapkey.description") ∧
    t.startPos = none ∧ t.endPos = none := by
  unfold metaTokensV1 at ht
  rw [List.mem_append] at ht
  rcases ht with ht | ht <;> [skip; skip] <;>
  · split at ht <;> simp_all

theorem extractLoopV1_tokens :
    ∀ fuel lines offset i, ∀ b ∈ extractLoop contLineTest metaTokensV1 fuel lines offset i,
      ∀ t ∈ b.tokens,
        (t.type = "mapkey.name" ∧ ∃ s e, t.startPos = some s ∧ t.endPos = some e ∧
          s < e ∧ e ≤ b.endPos) ∨
        ((t.type = "mapkey.label" ∨ t.type = "mapkey.description") ∧
          t.startPos = none ∧ t.endPos = none) := by
  intro fuel
  induction fuel with
  | zero => intro lines offset i b hb; simp [extractLoop] at hb
  | succ fuel ih =>
    intro lines offset i b hb t ht
    cases lines with
    | nil => simp [extractLoop] at hb
    | cons line rest =>
      simp only [extractLoop] at hb
      split at hb
      · exact ih _ _ _ b hb t ht
      next name hd =>
        simp only [List.mem_cons] at hb
        rcases hb with rfl | hb
        · simp only [List.mem_cons] at ht
          rcases ht with rfl | ht
          · left
            refine ⟨rfl, offset + indexOfSub name line,
              offset + indexOfSub name line + name.length, rfl, rfl, ?_, ?_⟩
            · have := declMatch_ne_nil hd
              have : name.length ≠ 0 := by simpa [List.length_eq_zero] using this
              omega
            · have h1 := indexOfSub_le (declMatch_containsSub hd)
              simp only []
              omega
          · exact Or.inr (mem_metaTokensV1 ht)
        · exact ih _ _ _ b hb t ht

theorem mem_insertTok {t x : Token} {l : List Token} :
    x ∈ insertTok t l ↔ x = t ∨ x ∈ l := by
  induction l with
  | nil => simp [insertTok]
  | cons u rest ih =>
    unfold insertTok
    split
    · simp only [List.mem_cons, ih]
      tauto
    · simp only [List.mem_cons]

theorem mem_sortByStart {x : Token} {l : List Token} :
    x ∈ sortByStart l ↔ x ∈ l := by
  induction l with
  | nil => simp [sortByStart]
  | cons t rest ih =>
    simp only [sortByStart, mem_insertTok, ih, List.mem_cons]

theorem extractMapkeyBlocks_end_le (text : List Char) :
    ∀ b ∈ extractMapkeyBlocks text, b.endPos ≤ text.length := by
  intro b hb
  simp only [extractMapkeyBlocks] at hb
  have := extractLoop_end_le _ _ _ _ b hb
  rw [splitLines_docLen] at this
  omega

/- ------------------------------------------------------------------
Theorems.
------------------------------------------------------------------ -/

/-- C2 counterexample: on the self-loop document (A calls only A),
getMapkeyDepth returns 1, not the claimed 0, while findCircularDependencies
does report the cycle A, A. -/
theorem C2_counterexample :
    getMapkeyDepth docSelfLoop ['A'] = 1 ∧
    getMapkeyDepth docSelfLoop ['A'] ≠ 0 ∧
    findCircularDependencies docSelfLoop = [[['A'], ['A']]] := by
  decide

/-- C3 counterexample: in a chain of 6 records R1 -> ... -> R6, R1 has depth
5, yet the nesting check reports no violation (the hard-coded test is
depth > 5), contradicting the claim that R1 is flagged with limit 5. -/
theorem C3_counterexample :
    getMapkeyDepth docChain6 ['R', '1'] = 5 ∧
    checkNestingDepth docChain6 = [] := by
  decide

/-- C3 amended: the limit 5 is hard-coded in checkNestingDepth and a record
is flagged only when its depth strictly exceeds 5: a chain of 7 records
flags the head with depth 6, while a chain of 6 yields no violation. -/
theorem C3_theorem :
    checkNestingDepth docChain7 = [(['S', '1'], 6)] ∧
    checkNestingDepth docChain6 = [] := by
  decide

/-- C4 counterexample: with two definitions sharing the name D (calling P
and Q respectively), the call graph holds a single entry for D whose value
is the later definition's call list; the earlier occurrence is overwritten,
not kept as a separate entry. -/
theorem C4_counterexample :
    buildCallGraph docDupName = [(['D'], [['Q']])] ∧
    (parseMapkeys docDupName).map MapkeyDefinition.calledMapkeys = [[['P']], [['Q']]] := by
  decide

/-- C9 counterexample: the first definition of M calls the undeclared X, yet
the final call graph entry for M is the second definition's empty list, so
no edge to X survives. -/
theorem C9_counterexample :
    (parseMapkeys docDupDangling).map MapkeyDefinition.calledMapkeys = [[['X']], []] ∧
    objGet (buildCallGraph docDupDangling) ['M'] = some [] := by
  decide

/-- C5 counterexample: on a record whose label spans continuation lines, the
emitted mapkey.label token's value retains a statement terminator and the
text after it (and loses the character preceding each escape backslash),
contradicting the claim that flattening stops at the first un-escaped
terminator and excludes it. -/
theorem C5_counterexample :
    ((extractMapkeyBlocks docMultiLabel).map Block.tokens).flatten.any
      (fun t => t.type == "mapkey.label" && t.value.contains ';') = true ∧
    ((extractMapkeyBlocks docMultiLabel).map Block.tokens).flatten.any
      (fun t => t.type == "mapkey.label" &&
        t.value == "@MAPKEY_LABELone tw @three;fou".toList) = true := by
  decide

/-- C5 amended: extractMacroValue strips the tag marker and continuation
marker from each line, strips the trailing escape backslash together with
the character immediately preceding it, joins the surviving non-empty
fragments with one space, and cuts at the first statement terminator whether
escaped or not; flattenMultiLine (used for the first variant's label and
description tokens) applies the same prefix/suffix stripping but never stops
at a terminator. -/
theorem C5_theorem :
    extractMacroValue contentMultiLabel 0 labelPat none =
      some { type := "macro.value", value := "mapkey A part on part two".toList,
             startPos := some 0, endPos := some 25, blockId := none } ∧
    flattenMultiLine (splitLines docMultiLabel) 1 =
      "@MAPKEY_LABELone tw @three;fou".toList := by
  decide

/-- C6 counterexample: the mapkey.label token produced by the first
extractMapkeyBlocks variant carries no numeric offsets at all (start and end
undefined), contradicting the claim that every token has numeric half-open
offsets with end > start. -/
theorem C6_counterexample :
    ((extractMapkeyBlocks docLabelOnly).map Block.tokens).flatten.any
      (fun t => t.type == "mapkey.label" && t.startPos.isNone && t.endPos.isNone) = true := by
  decide

/-- C8 counterexample: with two adjacent declaration lines, the second
extractMapkeyBlocks variant consumes the second declaration into the first
record's block (one merged block instead of two), because its continuation
test accepts any line starting with the record keyword. -/
theorem C8_counterexample :
    (extractMapkeyBlocks2 docAdjacent).map Block.name = [['A']] ∧
    (extractMapkeyBlocks2 docAdjacent).map Block.endPos = [25] := by
  decide

/-- C10 counterexample: a position far outside the document bounds makes all
three lookup functions return null rather than abort with an out-of-range
condition. -/
theorem C10_counterexample :
    getTokenAtPosition docShort 999 = none ∧
    getBlockAtPosition docShort 999 = none ∧
    getMapkeyAtPosition docShort 999 = none := by
  decide

/-- C7: for every document text, both extractMapkeyBlocks variants return
blocks in document order and non-overlapping — each consecutive block starts
at or after the previous block's end offset (in fact strictly after). -/
theorem C7_theorem (text : List Char) :
    List.Chain' (fun a b => a.endPos ≤ b.startPos) (extractMapkeyBlocks text) ∧
    List.Chain' (fun a b => a.endPos ≤ b.startPos) (extractMapkeyBlocks2 text) := by
  constructor <;>
  · simp only [extractMapkeyBlocks, extractMapkeyBlocks2]
    exact List.Pairwise.chain'
      ((extractLoop_pairwise _ _ _ _).imp (by intro a b h; omega))

/-- C6 amended: in the first block-tokenizer variant, every mapkey.name
token carries numeric offsets with end strictly greater than start, but the
mapkey.label and mapkey.description tokens created by addSimpleToken carry
no offsets at all. -/
theorem C6_theorem (text : List Char) (b : Block) (t : Token)
    (hb : b ∈ extractMapkeyBlocks text) (ht : t ∈ b.tokens) :
    (t.type = "mapkey.name" →
      ∃ s e, t.startPos = some s ∧ t.endPos = some e ∧ s < e) ∧
    ((t.type = "mapkey.label" ∨ t.type = "mapkey.description") →
      t.startPos = none ∧ t.endPos = none) := by
  simp only [extractMapkeyBlocks] at hb
  rcases extractLoopV1_tokens _ _ _ _ b hb t ht with
    ⟨hty, s, e, hs, he, hlt, _⟩ | ⟨hty, hs, he⟩
  · refine ⟨fun _ => ⟨s, e, hs, he, hlt⟩, fun hl => ?_⟩
    rcases hl with hl | hl <;> rw [hty] at hl <;> exact absurd hl (by decide)
  · refine ⟨fun hn => ?_, fun _ => ⟨hs, he⟩⟩
    rcases hty with hl | hl <;> rw [hl] at hn <;> exact absurd hn (by decide)

/-- C6 amended, concrete instance: the name token of the single block of
docLabelOnly has offsets 7 and 8, and its label token has none. -/
theorem C6_witness :
    ((((extractMapkeyBlocks docLabelOnly).headD emptyBlock).tokens.headD emptyToken).type =
        "mapkey.name" →
      ∃ s e,
        (((extractMapkeyBlocks docLabelOnly).headD emptyBlock).tokens.headD
            emptyToken).startPos = some s ∧
        (((extractMapkeyBlocks docLabelOnly).headD emptyBlock).tokens.headD
            emptyToken).endPos = some e ∧ s < e) ∧
    (((((extractMapkeyBlocks docLabelOnly).headD emptyBlock).tokens.headD emptyToken).type =
          "mapkey.label" ∨
        (((extractMapkeyBlocks docLabelOnly).headD emptyBlock).tokens.headD emptyToken).type =
          "mapkey.description") →
      (((extractMapkeyBlocks docLabelOnly).headD emptyBlock).tokens.headD
          emptyToken).startPos = none ∧
      (((extractMapkeyBlocks docLabelOnly).headD emptyBlock).tokens.headD
          emptyToken).endPos = none) :=
  C6_theorem docLabelOnly ((extractMapkeyBlocks docLabelOnly).headD emptyBlock)
    (((extractMapkeyBlocks docLabelOnly).headD emptyBlock).tokens.headD emptyToken)
    (by decide) (by decide)

/-- C10 amended: a position beyond the document length makes all three
lookup functions return null (the JS find misses every token, block and
definition range), not abort: the lookups degrade gracefully on
out-of-bounds positions. -/
theorem C10_theorem (text : List Char) (position : Nat)
    (h : text.length < position) :
    getTokenAtPosition text position = none ∧
    getBlockAtPosition text position = none ∧
    getMapkeyAtPosition text position = none := by
  refine ⟨?_, ?_, ?_⟩
  · unfold getTokenAtPosition tokenize
    rw [List.find?_eq_none]
    intro t ht
    rw [mem_sortByStart, List.mem_flatten] at ht
    obtain ⟨ts, hts, htt⟩ := ht
    rw [List.mem_map] at hts
    obtain ⟨b, hb, rfl⟩ := hts
    simp only [extractMapkeyBlocks] at hb
    rcases extractLoopV1_tokens _ _ _ _ b hb t htt with
      ⟨_, s, e, hs, he, _, hle⟩ | ⟨_, hs, he⟩
    · have hbe : b.endPos ≤ text.length :=
        extractMapkeyBlocks_end_le text b (by simpa [extractMapkeyBlocks] using hb)
      simp only [hs, he, Bool.and_eq_true, decide_eq_true_eq, not_and]
      intro _
      omega
    · simp [hs, he]
  · unfold getBlockAtPosition getMapkeyBlocks
    rw [List.find?_eq_none]
    intro b hb
    rw [List.mem_map] at hb
    obtain ⟨b0, hb0, rfl⟩ := hb
    have hbe : b0.endPos ≤ text.length := extractMapkeyBlocks_end_le text b0 hb0
    simp only [Bool.and_eq_true, decide_eq_true_eq, not_and]
    intro _
    omega
  · unfold getMapkeyAtPosition parseMapkeys getMapkeyBlocks
    rw [List.find?_eq_none]
    intro mk hmk
    rw [List.map_map, List.mem_map] at hmk
    obtain ⟨b0, hb0, rfl⟩ := hmk
    have hbe : b0.endPos ≤ text.length := extractMapkeyBlocks_end_le text b0 hb0
    simp only [Function.comp, buildMapkeyDefinition, Bool.and_eq_true,
      decide_eq_true_eq, not_and]
    intro _
    omega

/-- C10 amended, concrete instance: position 1000 on the short document. -/
theorem C10_witness :
    getTokenAtPosition docShort 1000 = none ∧
    getBlockAtPosition docShort 1000 = none ∧
    getMapkeyAtPosition docShort 1000 = none :=
  C10_theorem docShort 1000 (by decide)

theorem extractLoop_all_none {cont : Line → Bool}
    {mkMeta : List Line → Nat → BlockId → List Token} :
    ∀ fuel lines offset i, (∀ l ∈ lines, declMatch l = none) →
      extractLoop cont mkMeta fuel lines offset i = [] := by
  intro fuel
  induction fuel with
  | zero => intro lines offset i _; simp [extractLoop]
  | succ fuel ih =>
    intro lines offset i h
    cases lines with
    | nil => simp [extractLoop]
    | cons line rest =>
      have h0 : declMatch line = none := h line (by simp)
      simp only [extractLoop, h0]
      exact ih rest _ _ fun l hl => h l (by simp [hl])

/-- C1: parseMapkeys is total and structural — it yields exactly one
MapkeyDefinition per extracted block on every input, and a degenerate
document with no declaration lines yields the empty list. -/
theorem C1_theorem (text : List Char) :
    (parseMapkeys text).length = (extractMapkeyBlocks text).length ∧
    ((∀ l ∈ splitLines text, declMatch l = none) → parseMapkeys text = []) := by
  constructor
  · simp [parseMapkeys, getMapkeyBlocks]
  · intro h
    simp [parseMapkeys, getMapkeyBlocks, extractMapkeyBlocks,
      extractLoop_all_none _ _ _ _ h]

/-- C1, concrete instance: a document with no declaration lines parses to
the empty list. -/
theorem C1_witness :
    (parseMapkeys "hello\nworld".toList).length =
      (extractMapkeyBlocks "hello\nworld".toList).length ∧
    parseMapkeys "hello\nworld".toList = [] :=
  ⟨(C1_theorem _).1, (C1_theorem _).2 (by decide)⟩

theorem splitLines_append {l1 : List Char} (r : List Char) (h : '\n' ∉ l1) :
    splitLines (l1 ++ '\n' :: r) = l1 :: splitLines r := by
  induction l1 with
  | nil => simp [splitLines]
  | cons c t ih =>
    have hc : ¬ c = '\n' := fun e => h (by simp [e])
    have e1 := ih fun m => h (by simp [m])
    simp [splitLines, hc, e1]

theorem splitLines_no_newline {l : List Char} (h : '\n' ∉ l) : splitLines l = [l] := by
  induction l with
  | nil => rfl
  | cons c t ih =>
    have hc : ¬ c = '\n' := fun e => h (by simp [e])
    have e1 := ih fun m => h (by simp [m])
    simp [splitLines, hc, e1]

theorem startsWith_cons_elim {p : Char} {ps l : List Char}
    (h : startsWith (p :: ps) l = true) : ∃ t, l = p :: t ∧ startsWith ps t = true := by
  cases l with
  | nil => simp [startsWith] at h
  | cons c t =>
    simp only [startsWith, Bool.and_eq_true, beq_iff_eq] at h
    exact ⟨t, by rw [h.1], h.2⟩

theorem jsTrim_cons_of_not_ws {c : Char} (hc : isWs c = false) (t : List Char) :
    ∃ t2, jsTrim (c :: t) = c :: t2 := by
  unfold jsTrim
  rw [List.dropWhile_cons, hc]
  simp only [Bool.false_eq_true, if_false]
  rw [List.reverse_cons, List.dropWhile_append]
  split
  · refine ⟨[], ?_⟩
    rw [List.dropWhile_cons, hc]
    simp
  · refine ⟨(List.dropWhile isWs t.reverse).reverse, ?_⟩
    simp

theorem takeCont_decl_nil {cont : Line → Bool} {l2 : Line} {n2 : MName} (rest : List Line)
    (h2 : declMatch l2 = some n2) (hc : cont (jsTrim l2) = false) :
    takeCont cont (l2 :: rest) = [] := by
  obtain ⟨hsw, -, -⟩ := declMatch_elim h2
  have hsw2 : startsWith ('m' :: "apkey".toList) l2 = true := hsw
  obtain ⟨t, rfl, -⟩ := startsWith_cons_elim hsw2
  obtain ⟨t2, he⟩ := jsTrim_cons_of_not_ws (c := 'm') (by decide) t
  rw [he] at hc
  unfold takeCont
  rw [he]
  simp [contCommentTest, startsWith, hc]

/-- C8 amended: in the first extractMapkeyBlocks variant, when two
declaration lines are adjacent and the second does not pass the
continuation-line test (for instance because it does not end with the
escape backslash), the first block is closed at the end of the first line
and the second declaration opens its own block right after the newline.
In the second variant the adjacent declaration is instead consumed into the
first block (see the counterexample). -/
theorem C8_theorem (l1 l2 : Line) (n1 n2 : MName)
    (h1 : declMatch l1 = some n1) (h2 : declMatch l2 = some n2)
    (hn1 : '\n' ∉ l1) (hn2 : '\n' ∉ l2)
    (hc : contLineTest (jsTrim l2) = false) :
    (extractMapkeyBlocks (l1 ++ '\n' :: l2)).map
        (fun b => (b.name, b.startPos, b.endPos)) =
      [(n1, 0, l1.length), (n2, l1.length + 1, l1.length + 1 + l2.length)] := by
  have hlines : splitLines (l1 ++ '\n' :: l2) = [l1, l2] := by
    rw [splitLines_append l2 hn1, splitLines_no_newline hn2]
  have htc : takeCont contLineTest (l2 :: ([] : List Line)) = [] :=
    takeCont_decl_nil [] h2 hc
  have htc0 : takeCont contLineTest ([] : List Line) = [] := rfl
  unfold extractMapkeyBlocks
  rw [hlines]
  simp only [List.length_cons, List.length_nil, extractLoop, h1, h2, htc, htc0,
    List.drop_zero, sumLens, List.foldr_nil, List.map_cons, List.map_nil]
  simp

/-- C8 amended, concrete instance: two adjacent plain declarations in the
first variant yield two blocks split at the newline. -/
theorem C8_witness :
    (extractMapkeyBlocks ("mapkey A %B;".toList ++ '\n' :: "mapkey B ~x;".toList)).map
        (fun b => (b.name, b.startPos, b.endPos)) =
      [("A".toList, 0, ("mapkey A %B;".toList).length),
       ("B".toList, ("mapkey A %B;".toList).length + 1,
        ("mapkey A %B;".toList).length + 1 + ("mapkey B ~x;".toList).length)] :=
  C8_theorem "mapkey A %B;".toList "mapkey B ~x;".toList "A".toList "B".toList
    (by decide) (by decide) (by decide) (by decide) (by decide)

/- ------------------------------------------------------------------
Auxiliary lemmas: the call graph as a JS object.
------------------------------------------------------------------ -/

theorem objGet_cons (k1 : MName) (v1 : List MName) (rest : CallGraph) (q : MName) :
    objGet ((k1, v1) :: rest) q = if k1 = q then some v1 else objGet rest q := by
  by_cases h : k1 = q
  · subst h
    simp [objGet, List.find?_cons]
  · have hb : (k1 == q) = false := by simpa using h
    simp [objGet, List.find?_cons, hb, h]

theorem objGet_objSet (g : CallGraph) (k : MName) (v : List MName) (q : MName) :
    objGet (objSet g k v) q = if q = k then some v else objGet g q := by
  induction g with
  | nil =>
    simp only [objSet]
    rw [objGet_cons]
    by_cases h : q = k
    · simp [h]
    · have h2 : ¬ k = q := fun e => h e.symm
      simp [h, h2, objGet]
  | cons p rest ih =>
    obtain ⟨k1, v1⟩ := p
    simp only [objSet]
    split
    next hbeq =>
      have hk : k1 = k := by simpa using hbeq
      subst hk
      rw [objGet_cons, objGet_cons]
      by_cases h : q = k1
      · simp [h]
      · have h2 : ¬ k1 = q := fun e => h e.symm
        simp [h, h2]
    next hbeq =>
      have hk : ¬ k1 = k := by simpa using hbeq
      rw [objGet_cons, ih, objGet_cons]
      by_cases h : q = k
      · subst h
        simp [hk]
      · simp [h]

theorem foldl_objSet_find (defs : List MapkeyDefinition) :
    ∀ (g : CallGraph) (q : MName),
      objGet (defs.foldl (fun g mk => objSet g mk.name mk.calledMapkeys) g) q =
        match defs.reverse.find? (fun mk => mk.name == q) with
        | some mk => some mk.calledMapkeys
        | none => objGet g q := by
  induction defs with
  | nil => intro g q; simp
  | cons mk rest ih =>
    intro g q
    rw [List.foldl_cons, ih, List.reverse_cons, List.find?_append]
    cases hf : rest.reverse.find? (fun mk => mk.name == q) with
    | some mk2 => simp
    | none =>
      simp only [Option.none_orElse]
      rw [objGet_objSet]
      by_cases h : mk.name = q
      · simp [List.find?_cons, h]
      · have h2 : ¬ q = mk.name := fun e => h e.symm
        simp [List.find?_cons, h, h2]

theorem find?_eq_some_of_unique {α : Type} {p : α → Bool} {l : List α} {a : α}
    (ha : a ∈ l) (hpa : p a = true) (huniq : ∀ x ∈ l, p x = true → x = a) :
    l.find? p = some a := by
  induction l with
  | nil => simp at ha
  | cons b rest ih =>
    by_cases hb : p b = true
    · have : b = a := huniq b (by simp) hb
      subst this
      simp [List.find?_cons, hb]
    · rw [List.find?_cons]
      simp only [Bool.not_eq_true] at hb
      rw [hb]
      rcases List.mem_cons.mp ha with rfl | ha2
      · rw [hpa] at hb; cases hb
      · exact ih ha2 fun x hx hpx => huniq x (by simp [hx]) hpx

theorem objGet_some_elim {g : CallGraph} {q : MName} {v : List MName}
    (h : objGet g q = some v) : q ∈ g.map Prod.fst ∧ v ∈ g.map Prod.snd := by
  unfold objGet at h
  cases hf : g.find? (fun p => p.1 == q) with
  | none => rw [hf] at h; simp at h
  | some pr =>
    rw [hf] at h
    simp only [Option.map_some', Option.some.injEq] at h
    have hmem := List.mem_of_find?_eq_some hf
    have hp := List.find?_some hf
    simp only [beq_iff_eq] at hp
    constructor
    · rw [← hp]; exact List.mem_map_of_mem _ hmem
    · rw [← h]; exact List.mem_map_of_mem _ hmem

theorem graphNames_two {g : CallGraph} {a : MName} (h : objGet g a = some [a]) :
    2 ≤ (graphNames g).length := by
  obtain ⟨hk, hv⟩ := objGet_some_elim h
  unfold graphNames
  rw [List.length_append]
  have h1 : 0 < (g.map Prod.fst).length :=
    List.length_pos.mpr (List.ne_nil_of_mem hk)
  have h2 : 0 < ((g.map Prod.snd).flatten).length := by
    refine List.length_pos.mpr (List.ne_nil_of_mem (a := a) ?_)
    exact List.mem_flatten.mpr ⟨[a], hv, by simp⟩
  omega

/- ------------------------------------------------------------------
Auxiliary lemmas: depth and cycles.
------------------------------------------------------------------ -/

theorem calculateDepthF_dangling {g : CallGraph} {x : MName} (h : objGet g x = none)
    (fuel : Nat) (visited : List MName) : calculateDepthF (fuel + 1) g x visited = 0 := by
  unfold calculateDepthF
  split
  · rfl
  · simp [h]

theorem calculateDepthF_self_loop {g : CallGraph} {a : MName}
    (h : objGet g a = some [a]) (fuel : Nat) :
    calculateDepthF (fuel + 1 + 1) g a [] = 1 := by
  have inner : calculateDepthF (fuel + 1) g a [a] = 0 := by
    unfold calculateDepthF
    simp
  unfold calculateDepthF
  simp [h, inner]

theorem foldl_append_acc {α β : Type} (f : α → List β) :
    ∀ (cs : List α) (acc : List β),
      cs.foldl (fun acc c => acc ++ f c) acc = acc ++ (cs.map f).flatten := by
  intro cs
  induction cs with
  | nil => intro acc; simp
  | cons c rest ih => intro acc; simp [ih]

theorem findCyclesF_keys :
    ∀ (fuel : Nat) (g : CallGraph) (name : MName) (path visited : List MName),
      (∀ y ∈ path, objGet g y ≠ none) →
      ∀ cyc ∈ findCyclesF fuel g name path visited, ∀ y ∈ cyc, objGet g y ≠ none := by
  intro fuel
  induction fuel with
  | zero =>
    intro g name path visited _ cyc hcyc
    simp [findCyclesF] at hcyc
  | succ fuel ih =>
    intro g name path visited hpath cyc hcyc y hy
    unfold findCyclesF at hcyc
    split at hcyc
    next hmem =>
      simp only [List.mem_singleton] at hcyc
      subst hcyc
      rcases List.mem_append.mp hy with h | h
      · exact hpath y (List.mem_of_mem_drop h)
      · rw [List.mem_singleton] at h
        subst h
        exact hpath y hmem
    next hmem =>
      split at hcyc
      · simp at hcyc
      · rw [foldl_append_acc] at hcyc
        simp only [List.nil_append, List.mem_flatten, List.mem_map] at hcyc
        obtain ⟨cycs, ⟨c, hcmem, rfl⟩, hcyc2⟩ := hcyc
        cases hg : objGet g name with
        | none => rw [hg] at hcmem; simp at hcmem
        | some cs =>
          refine ih g c (path ++ [name]) visited ?_ cyc hcyc2 y hy
          intro z hz
          rcases List.mem_append.mp hz with h | h
          · exact hpath z h
          · rw [List.mem_singleton] at h
            subst h
            rw [hg]
            simp

theorem findCircular_fold_keys (g : CallGraph) (fuel : Nat) :
    ∀ (keys : List MName) (acc : List (List MName) × List MName),
      (∀ cyc ∈ acc.1, ∀ y ∈ cyc, objGet g y ≠ none) →
      ∀ cyc ∈ (keys.foldl
          (fun acc k => if k ∈ acc.2 then acc
            else (acc.1 ++ findCyclesF fuel g k [] acc.2, acc.2 ++ [k])) acc).1,
        ∀ y ∈ cyc, objGet g y ≠ none := by
  intro keys
  induction keys with
  | nil => intro acc hacc cyc hcyc; exact hacc cyc hcyc
  | cons k rest ih =>
    intro acc hacc cyc hcyc
    rw [List.foldl_cons] at hcyc
    by_cases hk : k ∈ acc.2
    · rw [if_pos hk] at hcyc
      exact ih acc hacc cyc hcyc
    · rw [if_neg hk] at hcyc
      refine ih _ ?_ cyc hcyc
      intro cyc2 hcyc2 y hy
      rcases List.mem_append.mp hcyc2 with h | h
      · exact hacc cyc2 h y hy
      · exact findCyclesF_keys fuel g k [] acc.2 (by simp) cyc2 h y hy

theorem findCircular_fold_mono (g : CallGraph) (fuel : Nat) :
    ∀ (keys : List MName) (acc : List (List MName) × List MName) (x : List MName),
      x ∈ acc.1 →
      x ∈ (keys.foldl
          (fun acc k => if k ∈ acc.2 then acc
            else (acc.1 ++ findCyclesF fuel g k [] acc.2, acc.2 ++ [k])) acc).1 := by
  intro keys
  induction keys with
  | nil => intro acc x hx; exact hx
  | cons k rest ih =>
    intro acc x hx
    rw [List.foldl_cons]
    by_cases hk : k ∈ acc.2
    · rw [if_pos hk]
      exact ih acc x hx
    · rw [if_neg hk]
      exact ih _ x (List.mem_append_left _ hx)

theorem findCircular_fold_mem (g : CallGraph) (fuel : Nat) (a : MName) (cyc : List MName)
    (hinner : ∀ vis, a ∉ vis → cyc ∈ findCyclesF fuel g a [] vis) :
    ∀ (keys : List MName) (acc : List (List MName) × List MName),
      a ∈ keys → a ∉ acc.2 →
      cyc ∈ (keys.foldl
          (fun acc k => if k ∈ acc.2 then acc
            else (acc.1 ++ findCyclesF fuel g k [] acc.2, acc.2 ++ [k])) acc).1 := by
  intro keys
  induction keys with
  | nil => intro acc h; simp at h
  | cons k rest ih =>
    intro acc hk hna
    rw [List.foldl_cons]
    by_cases hak : a = k
    · subst hak
      rw [if_neg hna]
      exact findCircular_fold_mono g fuel rest _ cyc
        (List.mem_append_right _ (hinner acc.2 hna))
    · have h2 : a ∈ rest := by
        rcases List.mem_cons.mp hk with e | h2
        · exact absurd e hak
        · exact h2
      by_cases hin : k ∈ acc.2
      · rw [if_pos hin]
        exact ih acc h2 hna
      · rw [if_neg hin]
        refine ih _ h2 ?_
        intro hmem
        rcases List.mem_append.mp hmem with h | h
        · exact hna h
        · rw [List.mem_singleton] at h
          exact hak h

theorem findCyclesF_self_loop {g : CallGraph} {a : MName} (h : objGet g a = some [a])
    (fuel : Nat) (vis : List MName) (hvis : a ∉ vis) :
    [a, a] ∈ findCyclesF (fuel + 1 + 1) g a [] vis := by
  have inner : findCyclesF (fuel + 1) g a [a] vis = [[a, a]] := by
    unfold findCyclesF
    simp [idxOf]
  unfold findCyclesF
  simp [hvis, h, inner]

/- ------------------------------------------------------------------
Graph theorems.
------------------------------------------------------------------ -/

/-- C4 amended: the call graph is a name-keyed object, so lookup returns the
LAST definition with the queried name (its calledMapkeys, order preserved
and not deduplicated); earlier definitions sharing the name are overwritten
rather than kept as separate entries. -/
theorem C4_theorem (text : List Char) (q : MName) :
    objGet (buildCallGraph text) q =
      ((parseMapkeys text).reverse.find? (fun mk => mk.name == q)).map
        MapkeyDefinition.calledMapkeys := by
  unfold buildCallGraph
  rw [foldl_objSet_find]
  cases hf : (parseMapkeys text).reverse.find? (fun mk => mk.name == q) with
  | some mk => simp
  | none => simp [objGet]

/-- C2 amended: when the call graph maps A exactly to the one-element list
A (a pure self-loop), getMapkeyDepth returns 1 — the self-loop edge counts
one level and the revisited name contributes 0 further depth — and
findCircularDependencies terminates and reports the cycle A, A. -/
theorem C2_theorem (text : List Char) (a : MName)
    (h : objGet (buildCallGraph text) a = some [a]) :
    getMapkeyDepth text a = 1 ∧ [a, a] ∈ findCircularDependencies text := by
  have h2 := graphNames_two h
  constructor
  · simp only [getMapkeyDepth]
    obtain ⟨m, hm⟩ : ∃ m, (graphNames (buildCallGraph text)).length + 1 = m + 1 + 1 :=
      ⟨(graphNames (buildCallGraph text)).length - 1, by omega⟩
    rw [hm]
    exact calculateDepthF_self_loop h m
  · simp only [findCircularDependencies]
    obtain ⟨m, hm⟩ : ∃ m, (graphNames (buildCallGraph text)).length + 1 = m + 1 + 1 :=
      ⟨(graphNames (buildCallGraph text)).length - 1, by omega⟩
    rw [hm]
    refine findCircular_fold_mem _ _ a [a, a] ?_ _ _ ?_ ?_
    · intro vis hvis
      exact findCyclesF_self_loop h m vis hvis
    · exact (objGet_some_elim h).1
    · simp

/-- C2 amended, concrete instance: the self-loop document. -/
theorem C2_witness :
    getMapkeyDepth docSelfLoop ['A'] = 1 ∧
    [['A'], ['A']] ∈ findCircularDependencies docSelfLoop :=
  C2_theorem docSelfLoop ['A'] (by decide)

/-- C9 amended: a record whose name no other definition shares keeps its
whole call list — dangling names included — as its CallGraph entry; a
dangling name (no graph entry) has depth 0 and never appears in any
reported cycle, and no error is raised anywhere. -/
theorem C9_theorem :
    (∀ (text : List Char) (mk : MapkeyDefinition), mk ∈ parseMapkeys text →
      (∀ mk2 ∈ parseMapkeys text, mk2.name = mk.name → mk2 = mk) →
      objGet (buildCallGraph text) mk.name = some mk.calledMapkeys) ∧
    (∀ (text : List Char) (x : MName), objGet (buildCallGraph text) x = none →
      getMapkeyDepth text x = 0) ∧
    (∀ (text : List Char) (x : MName), objGet (buildCallGraph text) x = none →
      ∀ cyc ∈ findCircularDependencies text, x ∉ cyc) := by
  refine ⟨?_, ?_, ?_⟩
  · intro text mk hmem huniq
    unfold buildCallGraph
    rw [foldl_objSet_find]
    have hf : (parseMapkeys text).reverse.find? (fun x => x.name == mk.name) = some mk := by
      apply find?_eq_some_of_unique
      · simpa using hmem
      · simp
      · intro x hx hpx
        exact huniq x (by simpa using hx) (by simpa using hpx)
    rw [hf]
  · intro text x h
    simp only [getMapkeyDepth]
    exact calculateDepthF_dangling h _ []
  · intro text x h cyc hcyc hx
    simp only [findCircularDependencies] at hcyc
    exact findCircular_fold_keys _ _ _ _ (by simp) cyc hcyc x hx h

/-- C9 amended, concrete instance: the unique record Z of the short document
keeps its (empty) call list as its entry, and the dangling name X has depth
0 and appears in no cycle. -/
theorem C9_witness :
    objGet (buildCallGraph docShort)
        ((parseMapkeys docShort).headD emptyMapkeyDefinition).name =
      some ((parseMapkeys docShort).headD emptyMapkeyDefinition).calledMapkeys ∧
    getMapkeyDepth docShort ['X'] = 0 ∧
    ∀ cyc ∈ findCircularDependencies docShort, ['X'] ∉ cyc :=
  ⟨C9_theorem.1 docShort _ (by decide) (by decide),
   C9_theorem.2.1 docShort ['X'] (by decide),
   C9_theorem.2.2 docShort ['X'] (by decide)⟩

end VscodeCreo
